import Mathlib

/-!
Verification of the arithmetized-memory subsystem of the openvm repository:
the memory bus interaction protocol, the memory controller, the memory
audit chip, the range checker, the connector public values, and the
ModularMultDivChip.  Components whose implementation is not part of the
source tree (only tests, declarations or callers are) are modelled from
the specification; each such definition says so in its doc comment.
-/

namespace OpenVM

/-- An address of VM memory: a pair of an address space and a pointer,
as in the source data model (the pair is the sole key). -/
structure Address where
  addrSpace : Nat
  pointer : Nat
deriving DecidableEq

/-- A value together with the timestamp of the access that produced it,
as `system::memory::manager::TimestampedValue` used by the audit tests. -/
structure TimestampedValue where
  value : Nat
  timestamp : Nat
deriving DecidableEq

/-- Direction of a bus interaction. -/
inductive Direction where
  | send
  | receive
deriving DecidableEq

/-- Modelled from the spec: a bus interaction is (bus id, ordered tuple of
field elements, multiplicity, direction); the stark-backend interaction
types are not under the provided source tree. -/
structure Interaction where
  bus : Nat
  fields : List Nat
  mult : Nat
  dir : Direction
deriving DecidableEq

/-- Modelled from the spec: the multiset of tuples sent on bus `b`, each
tuple counted with its row multiplicity. -/
def sentTuples (rows : List Interaction) (b : Nat) : Multiset (List Nat) :=
  (rows.map (fun i =>
    if i.bus = b ∧ i.dir = Direction.send then Multiset.replicate i.mult i.fields
    else 0)).sum

/-- Modelled from the spec: the multiset of tuples received on bus `b`,
each tuple counted with its row multiplicity. -/
def receivedTuples (rows : List Interaction) (b : Nat) : Multiset (List Nat) :=
  (rows.map (fun i =>
    if i.bus = b ∧ i.dir = Direction.receive then Multiset.replicate i.mult i.fields
    else 0)).sum

/-- Modelled from the spec: the bus balance check for bus `b`: the
aggregate multiset of sent tuples equals the aggregate multiset of
received tuples, weighted by multiplicities. -/
def busBalanced (rows : List Interaction) (b : Nat) : Prop :=
  sentTuples rows b = receivedTuples rows b

instance (rows : List Interaction) (b : Nat) : Decidable (busBalanced rows b) := by
  unfold busBalanced
  infer_instance

/-- A memory write record: address, old timestamped value, new timestamped
value, as in the spec data model and `MemoryHeapWriteRecord`'s payload. -/
structure MemoryWriteRecord where
  addr : Address
  oldTV : TimestampedValue
  newTV : TimestampedValue
deriving DecidableEq

/-- The multiset of (address, value, timestamp) tuples of a memory image
restricted to a list of touched addresses. -/
def imageMultiset (addrs : List Address) (mem : Address → TimestampedValue) :
    Multiset (Address × TimestampedValue) :=
  (addrs.map (fun a => (a, mem a)) : List (Address × TimestampedValue))

/-- Apply one write record to a memory image. -/
def applyWrite (mem : Address → TimestampedValue) (w : MemoryWriteRecord) :
    Address → TimestampedValue :=
  fun a => if a = w.addr then w.newTV else mem a

/-- Apply a log of write records, in order, to a memory image. -/
def applyWrites (mem : Address → TimestampedValue) (ws : List MemoryWriteRecord) :
    Address → TimestampedValue :=
  ws.foldl applyWrite mem

/-- A write log is consistent when each record's old value is exactly the
value stored at its address just before the write. -/
def ConsistentLog : (Address → TimestampedValue) → List MemoryWriteRecord → Prop
  | _, [] => True
  | mem, w :: ws => mem w.addr = w.oldTV ∧ ConsistentLog (applyWrite mem w) ws

/-- Modelled from the spec: the canonical default for a never-written
address: value 0 with timestamp 0 (timestamp 0 is reserved for "never
written"). -/
def defaultTV : TimestampedValue := ⟨0, 0⟩

/-- Look an address up in an association-list memory image, falling back
to the canonical default for a never-written address. -/
def mlookup (image : List (Address × TimestampedValue)) (a : Address) :
    TimestampedValue :=
  match image.find? (fun p => decide (p.1 = a)) with
  | some p => p.2
  | none => defaultTV

/-- Insert or overwrite an address in an association-list memory image. -/
def minsert (image : List (Address × TimestampedValue)) (a : Address)
    (tv : TimestampedValue) : List (Address × TimestampedValue) :=
  match image with
  | [] => [(a, tv)]
  | p :: ps => if p.1 = a then (a, tv) :: ps else p :: minsert ps a tv

/-- A memory read record: address, value read, timestamp of the read and
timestamp of the previous write to that address, as in the spec data
model. -/
structure MemoryReadRecord where
  addr : Address
  value : Nat
  timestamp : Nat
  prevTimestamp : Nat
deriving DecidableEq

/-- Modelled from the spec: the memory controller owns the live
address-to-timestamped-value mapping and a single global monotonically
increasing timestamp counter (the controller implementation is not under
the provided source tree; shape taken from its callers and tests). -/
structure MemoryController where
  image : List (Address × TimestampedValue)
  timestamp : Nat
deriving DecidableEq

/-- Modelled from the spec: the initial controller: empty image, counter
starting above zero so that timestamp 0 is reserved for "never written". -/
def MemoryController.initial : MemoryController := ⟨[], 1⟩

/-- Modelled from the spec: `read` returns the timestamped value currently
stored (or the canonical default if the address was never written), stamps
the access with a fresh timestamp, and emits a `MemoryReadRecord`.  It
does not change the stored value. -/
def MemoryController.read (c : MemoryController) (a : Address) :
    MemoryReadRecord × MemoryController :=
  let tv := mlookup c.image a
  (⟨a, tv.value, c.timestamp, tv.timestamp⟩, ⟨c.image, c.timestamp + 1⟩)

/-- Modelled from the spec: `write` stores the new value at a fresh
timestamp, returns the prior timestamped value for bookkeeping, and emits
a `MemoryWriteRecord`.  One timestamp is issued per controller call. -/
def MemoryController.write (c : MemoryController) (a : Address) (v : Nat) :
    MemoryWriteRecord × MemoryController :=
  let old := mlookup c.image a
  (⟨a, old, ⟨v, c.timestamp⟩⟩,
   ⟨minsert c.image a ⟨v, c.timestamp⟩, c.timestamp + 1⟩)

/-- Apply a sequence of writes, all to the same address `a`, collecting the
emitted write records. -/
def writeSeq (c : MemoryController) (a : Address) :
    List Nat → List MemoryWriteRecord × MemoryController
  | [] => ([], c)
  | v :: vs =>
    let (w, c1) := c.write a v
    let (ws, c2) := writeSeq c1 a vs
    (w :: ws, c2)

/-- Among the emitted write records, the last one to address `a` whose new
timestamp is strictly smaller than `t` (the spec's "last Wi whose
timestamp is strictly smaller than R's timestamp"). -/
def lastWriteBefore (recs : List MemoryWriteRecord) (a : Address) (t : Nat) :
    Option MemoryWriteRecord :=
  (recs.filter (fun w => decide (w.addr = a) && decide (w.newTV.timestamp < t))).getLast?

/-- A single memory operation driven through the controller. -/
inductive MemOp where
  | read (a : Address)
  | write (a : Address) (v : Nat)
deriving DecidableEq

/-- Run one operation, returning the timestamp stamped on the access. -/
def MemoryController.step (c : MemoryController) : MemOp → Nat × MemoryController
  | .read a => (((c.read a).1).timestamp, (c.read a).2)
  | .write a v => (((c.write a v).1).newTV.timestamp, (c.write a v).2)

/-- Run a list of operations, collecting the issued access timestamps. -/
def runOps (c : MemoryController) : List MemOp → List Nat × MemoryController
  | [] => ([], c)
  | op :: ops =>
    let (t, c1) := c.step op
    let (ts, c2) := runOps c1 ops
    (t :: ts, c2)

/-- `next_power_of_two`, the documented semantics of Rust's
`usize::next_power_of_two`: the smallest power of two that is greater
than or equal to `n` (and 1 for `n = 0`). -/
def next_power_of_two (n : Nat) : Nat := 2 ^ Nat.clog 2 n

/-- `circuits/primitives/src/utils.rs`: return either 0 if `n` is zero or
the next power of two of `n`; used to resize the number of rows in a
trace matrix. -/
def next_power_of_two_or_zero (n : Nat) : Nat :=
  if n = 0 then 0 else next_power_of_two n

/-- Modelled from the spec: the memory audit chip state: the memory bus id
and the touched addresses with their declared initial values, in touch
order (the `MemoryAuditChip` implementation is not under the provided
source tree; shape taken from `audit/tests.rs`). -/
structure MemoryAuditChip where
  memoryBus : Nat
  touched : List (Address × Nat)
deriving DecidableEq

/-- Modelled from the spec: `touch_address` records an address (with its
declared initial value) for auditing; a repeated touch is ignored so the
chip keeps one entry per distinct touched address. -/
def MemoryAuditChip.touch_address (chip : MemoryAuditChip)
    (addrSpace pointer init : Nat) : MemoryAuditChip :=
  if (⟨addrSpace, pointer⟩ : Address) ∈ chip.touched.map Prod.fst then chip
  else { chip with touched := chip.touched ++ [(⟨addrSpace, pointer⟩, init)] }

/-- One row of the audit trace: a multiplicity followed by the address and
the timestamped value, mirroring the 6-column dummy rows of
`audit/tests.rs`. -/
structure AuditRow where
  mult : Nat
  addrSpace : Nat
  pointer : Nat
  value : Nat
  timestamp : Nat
deriving DecidableEq

/-- Modelled from the spec: the audit chip emits one content row per
distinct touched address, carrying that address's terminal timestamped
value from the frozen final image, with multiplicity 1. -/
def MemoryAuditChip.contentRows (chip : MemoryAuditChip)
    (finalMem : Address → TimestampedValue) : List AuditRow :=
  chip.touched.map (fun p =>
    ⟨1, p.1.addrSpace, p.1.pointer, (finalMem p.1).value, (finalMem p.1).timestamp⟩)

/-- Modelled from the spec: `generate_trace` pads the content rows with
all-zero (multiplicity 0) rows up to `next_power_of_two_or_zero` of the
content row count. -/
def MemoryAuditChip.generate_trace (chip : MemoryAuditChip)
    (finalMem : Address → TimestampedValue) : List AuditRow :=
  let content := chip.contentRows finalMem
  content ++ List.replicate
    (next_power_of_two_or_zero content.length - content.length) ⟨0, 0, 0, 0, 0⟩

/-- Modelled from the spec: the two interactions declared by one audit row
for address `a`: send the "initial" side (declared initial value,
timestamp 0) and receive the "final" side (the terminal timestamped
value), both on the memory bus. -/
def auditRowInteractions (memBus : Nat) (a : Address) (init : Nat)
    (finalTV : TimestampedValue) : List Interaction :=
  [⟨memBus, [a.addrSpace, a.pointer, init, 0], 1, .send⟩,
   ⟨memBus, [a.addrSpace, a.pointer, finalTV.value, finalTV.timestamp], 1, .receive⟩]

/-- All interactions declared by the audit chip against a frozen final
image. -/
def auditInteractions (chip : MemoryAuditChip)
    (finalMem : Address → TimestampedValue) : List Interaction :=
  (chip.touched.map (fun p =>
    auditRowInteractions chip.memoryBus p.1 p.2 (finalMem p.1))).flatten

/-- Modelled from `audit/tests.rs`: the counterpart dummy traces: an
initial-image counterpart that receives each initial tuple and a
final-image counterpart that sends each final tuple, on the same memory
bus. -/
def counterpartInteractions (chip : MemoryAuditChip)
    (finalMem : Address → TimestampedValue) : List Interaction :=
  (chip.touched.map (fun p =>
    [(⟨chip.memoryBus, [p.1.addrSpace, p.1.pointer, p.2, 0], 1, .receive⟩ : Interaction),
     ⟨chip.memoryBus,
      [p.1.addrSpace, p.1.pointer, (finalMem p.1).value, (finalMem p.1).timestamp],
      1, .send⟩])).flatten

/-- The BabyBear prime, the field of the proving engine used by the
connector and audit tests. -/
def babyBearPrime : Nat := 2013265921

/-- The BabyBear field. -/
abbrev BB := ZMod babyBearPrime

/-- The connector chip's public values used by `connector/tests.rs`:
the exit code and the termination flag. -/
structure VmConnectorPvs where
  exit_code : BB
  is_terminate : BB
deriving DecidableEq

/-- Modelled from the spec: honest trace generation for a program that
terminates with exit code `e` always succeeds and commits connector
public values `is_terminate = 1` and `exit_code = e`; soundness is never
checked at generation time. -/
def execute_and_generate (e : Nat) : Option VmConnectorPvs :=
  some ⟨(e : BB), 1⟩

/-- Modelled from the spec: proof verification of the connector public
values succeeds exactly when the committed values match the ones the
honest execution's constraints force (the verifier itself is not under
the provided source tree; behaviour taken from `connector/tests.rs`). -/
def connectorVerify (e : Nat) (pvs : VmConnectorPvs) : Bool :=
  decide (pvs = ⟨(e : BB), 1⟩)

/-- Modelled from the spec: the range checker counting table: one send
row per representable value below `2 ^ num_bits`, carrying as its
multiplicity the number of times that value was checked. -/
def rangeTableRows (rangeBus num_bits : Nat) (checks : List Nat) :
    List Interaction :=
  (List.range (2 ^ num_bits)).map (fun v => ⟨rangeBus, [v], checks.count v, .send⟩)

/-- Modelled from the spec: each `range_check(v)` call issues one receive
interaction carrying `v` on the shared range bus. -/
def rangeCheckRows (rangeBus : Nat) (checks : List Nat) : List Interaction :=
  checks.map (fun v => ⟨rangeBus, [v], 1, .receive⟩)

/-- Modelled from the spec: the range bus balance check for a batch of
range checks against the counting table. -/
def rangeCheckerBalanced (rangeBus num_bits : Nat) (checks : List Nat) : Prop :=
  busBalanced (rangeTableRows rangeBus num_bits checks ++ rangeCheckRows rangeBus checks)
    rangeBus

/-- Modelled from the spec: the modular arithmetic opcode class; its
defining enum is not under the provided source tree (only callers).  Only
`MUL` and `DIV` reach `ModularMultDivChip::solve`; every other variant is
`unreachable!()` there. -/
inductive ModularArithmeticOpcode where
  | ADD
  | SUB
  | MUL
  | DIV
deriving DecidableEq

/-- Modelled from the spec: little-endian recomposition of fixed-size
limbs into a big unsigned integer (`utils::limbs_to_biguint` is not under
the provided source tree). -/
def limbs_to_biguint (limbs : List Nat) (limb_size : Nat) : Nat :=
  limbs.foldr (fun l acc => l + acc * 2 ^ limb_size) 0

/-- Modelled from the spec: little-endian decomposition of a big unsigned
integer into `num_limbs` limbs of `limb_size` bits each
(`utils::biguint_to_limbs` is not under the provided source tree). -/
def biguint_to_limbs (x : Nat) (limb_size num_limbs : Nat) : List Nat :=
  (List.range num_limbs).map (fun i => x / 2 ^ (limb_size * i) % 2 ^ limb_size)

/-- Modelled from the spec: the extended-Euclid modular inverse of
`afs_primitives::bigint::utils::big_uint_mod_inverse` (not under the
provided source tree), reduced into `[0, m)`. -/
def big_uint_mod_inverse (y m : Nat) : Nat :=
  (Nat.gcdA y m % (m : Int)).toNat

/-- The `ModularMultDivChip` of `vm/src/old/modular_multdiv/mod.rs`: its
compile-time constants `CARRY_LIMBS`, `NUM_LIMBS`, `LIMB_SIZE` made
explicit, together with the modulus and the shared range checker's
`range_max_bits`. -/
structure ModularMultDivChip where
  CARRY_LIMBS : Nat
  NUM_LIMBS : Nat
  LIMB_SIZE : Nat
  modulus : Nat
  range_max_bits : Nat
deriving DecidableEq

/-- `ModularMultDivChip::new`: asserts that the shared range checker's
`range_max_bits` is at least `LIMB_SIZE`; the panic of a failed `assert!`
is modelled as `none`. -/
def ModularMultDivChip.new (CARRY_LIMBS NUM_LIMBS LIMB_SIZE range_max_bits
    modulus : Nat) : Option ModularMultDivChip :=
  if range_max_bits < LIMB_SIZE then none
  else some ⟨CARRY_LIMBS, NUM_LIMBS, LIMB_SIZE, modulus, range_max_bits⟩

/-- `ModularMultDivChip::solve`: `MUL` is `(x * y) % modulus`, `DIV`
multiplies by the modular inverse of `y`; every other opcode is
`unreachable!()`, modelled as `none`. -/
def ModularMultDivChip.solve (chip : ModularMultDivChip)
    (opcode : ModularArithmeticOpcode) (x y : Nat) : Option Nat :=
  match opcode with
  | .MUL => some (x * y % chip.modulus)
  | .DIV => some (x * big_uint_mod_inverse y chip.modulus % chip.modulus)
  | _ => none

/-- An execution state: program counter and timestamp, as
`arch::ExecutionState` (not under the provided source tree; shape taken
from its use in `ModularMultDivChip::execute`). -/
structure ExecutionState where
  pc : Nat
  timestamp : Nat
deriving DecidableEq

/-- An instruction as consumed by `ModularMultDivChip::execute`, with the
opcode already decoded relative to the chip's offset (`op_a`, `op_b`,
`op_c` are the z, x, y address pointers). -/
structure Instruction where
  opcode : ModularArithmeticOpcode
  op_a : Nat
  op_b : Nat
  op_c : Nat
  d : Nat
  e : Nat
deriving DecidableEq

/-- Modelled from the spec: read one memory cell through the controller;
exactly one timestamp is issued for the call. -/
def MemoryController.readCell (c : MemoryController) (a : Address) :
    Nat × MemoryController :=
  ((mlookup c.image a).value, ⟨c.image, c.timestamp + 1⟩)

/-- Modelled from the spec: one batched read of `n` consecutive cells;
the whole batch is a single controller call issuing one timestamp. -/
def MemoryController.readRange (c : MemoryController) (sp ptr n : Nat) :
    List Nat × MemoryController :=
  ((List.range n).map (fun i => (mlookup c.image ⟨sp, ptr + i⟩).value),
   ⟨c.image, c.timestamp + 1⟩)

/-- Modelled from the spec: one batched write of consecutive cells, all
stamped with the single timestamp issued for the call. -/
def MemoryController.writeRange (c : MemoryController) (sp ptr : Nat)
    (vals : List Nat) : MemoryController :=
  ⟨(List.range vals.length).foldl
      (fun img i => minsert img ⟨sp, ptr + i⟩ ⟨vals.getD i 0, c.timestamp⟩)
      c.image,
   c.timestamp + 1⟩

/-- Modelled from the spec: `read_heap` reads the address cell at
`(d, ptr)` to obtain the data pointer, then batch-reads `n` data cells in
address space `e`: two controller calls, hence two timestamps. -/
def MemoryController.read_heap (c : MemoryController) (d e ptr n : Nat) :
    (Nat × List Nat) × MemoryController :=
  let (p, c1) := c.readCell ⟨d, ptr⟩
  let (data, c2) := c1.readRange e p n
  ((p, data), c2)

/-- Modelled from the spec: `write_heap` reads the address cell at
`(d, ptr)` then batch-writes the data cells in address space `e`: two
controller calls, hence two timestamps. -/
def MemoryController.write_heap (c : MemoryController) (d e ptr : Nat)
    (vals : List Nat) : MemoryController :=
  let (p, c1) := c.readCell ⟨d, ptr⟩
  c1.writeRange e p vals

/-- The ways `ModularMultDivChip::execute` can panic: a failed
`assert_eq!(CARRY_LIMBS, NUM_LIMBS * 2 - 1)`, a failed
`assert!(LIMB_SIZE <= 10)`, or the `unreachable!()` arm of `solve`. -/
inductive ExecError where
  | assertCarryLimbs
  | assertLimbSize
  | unreachableOpcode
deriving DecidableEq

/-- `ModularMultDivChip::execute`: checks the two assertions first (before
any memory access), then performs the two heap reads of the x and y limb
arrays, computes z with `solve`, writes z back with one heap write, and
returns the execution state with `pc + 1` and the controller's timestamp
after the accesses. -/
def ModularMultDivChip.execute (chip : ModularMultDivChip) (inst : Instruction)
    (from_state : ExecutionState) (c : MemoryController) :
    Except ExecError (ExecutionState × MemoryController) :=
  if chip.CARRY_LIMBS ≠ chip.NUM_LIMBS * 2 - 1 then .error .assertCarryLimbs
  else if ¬ chip.LIMB_SIZE ≤ 10 then .error .assertLimbSize
  else
    let (xr, c1) := c.read_heap inst.d inst.e inst.op_b chip.NUM_LIMBS
    let (yr, c2) := c1.read_heap inst.d inst.e inst.op_c chip.NUM_LIMBS
    let x_biguint := limbs_to_biguint xr.2 chip.LIMB_SIZE
    let y_biguint := limbs_to_biguint yr.2 chip.LIMB_SIZE
    match chip.solve inst.opcode x_biguint y_biguint with
    | none => .error .unreachableOpcode
    | some z_biguint =>
      let z_limbs := biguint_to_limbs z_biguint chip.LIMB_SIZE chip.NUM_LIMBS
      let c3 := c2.write_heap inst.d inst.e inst.op_a z_limbs
      .ok (⟨from_state.pc + 1, c3.timestamp⟩, c3)

/-! ### Helper lemmas about the bus -/

theorem sentTuples_append (l1 l2 : List Interaction) (b : Nat) :
    sentTuples (l1 ++ l2) b = sentTuples l1 b + sentTuples l2 b := by
  simp [sentTuples, List.map_append]

theorem receivedTuples_append (l1 l2 : List Interaction) (b : Nat) :
    receivedTuples (l1 ++ l2) b = receivedTuples l1 b + receivedTuples l2 b := by
  simp [receivedTuples, List.map_append]

theorem sentTuples_perm {l1 l2 : List Interaction} (h : l1.Perm l2) (b : Nat) :
    sentTuples l1 b = sentTuples l2 b :=
  List.Perm.sum_eq (h.map _)

theorem receivedTuples_perm {l1 l2 : List Interaction} (h : l1.Perm l2) (b : Nat) :
    receivedTuples l1 b = receivedTuples l2 b :=
  List.Perm.sum_eq (h.map _)

theorem sentTuples_zero_mult (pad : List Interaction) (b : Nat)
    (hpad : ∀ i ∈ pad, i.mult = 0) : sentTuples pad b = 0 := by
  induction pad with
  | nil => rfl
  | cons i rest ih =>
    have hi : i.mult = 0 := hpad i (List.mem_cons_self i rest)
    have hrest := ih (fun j hj => hpad j (List.mem_cons_of_mem i hj))
    simp [sentTuples] at hrest ⊢
    constructor
    · intro _ _
      simp [hi]
    · exact hrest

theorem receivedTuples_zero_mult (pad : List Interaction) (b : Nat)
    (hpad : ∀ i ∈ pad, i.mult = 0) : receivedTuples pad b = 0 := by
  induction pad with
  | nil => rfl
  | cons i rest ih =>
    have hi : i.mult = 0 := hpad i (List.mem_cons_self i rest)
    have hrest := ih (fun j hj => hpad j (List.mem_cons_of_mem i hj))
    simp [receivedTuples] at hrest ⊢
    constructor
    · intro _ _
      simp [hi]
    · exact hrest

theorem count_sentTuples_map {α : Type} (l : List α) (g : α → Interaction)
    (b : Nat) (u : List Nat) :
    Multiset.count u (sentTuples (l.map g) b)
      = (l.map (fun x =>
          if (g x).bus = b ∧ (g x).dir = Direction.send ∧ (g x).fields = u
          then (g x).mult else 0)).sum := by
  induction l with
  | nil => simp [sentTuples]
  | cons x xs ih =>
    simp only [List.map_cons, sentTuples, List.sum_cons, Multiset.count_add] at ih ⊢
    rw [ih]
    congr 1
    by_cases h1 : (g x).bus = b
    · by_cases h2 : (g x).dir = Direction.send
      · simp [h1, h2, Multiset.count_replicate]
      · simp [h1, h2]
    · simp [h1]

theorem count_receivedTuples_map {α : Type} (l : List α) (g : α → Interaction)
    (b : Nat) (u : List Nat) :
    Multiset.count u (receivedTuples (l.map g) b)
      = (l.map (fun x =>
          if (g x).bus = b ∧ (g x).dir = Direction.receive ∧ (g x).fields = u
          then (g x).mult else 0)).sum := by
  induction l with
  | nil => simp [receivedTuples]
  | cons x xs ih =>
    simp only [List.map_cons, receivedTuples, List.sum_cons, Multiset.count_add] at ih ⊢
    rw [ih]
    congr 1
    by_cases h1 : (g x).bus = b
    · by_cases h2 : (g x).dir = Direction.receive
      · simp [h1, h2, Multiset.count_replicate]
      · simp [h1, h2]
    · simp [h1]

theorem sum_range_hit (n t : Nat) (f : Nat → Nat) :
    ((List.range n).map (fun v => if v = t then f v else 0)).sum
      = if t < n then f t else 0 := by
  induction n with
  | zero => simp
  | succ n ih =>
    rw [List.range_succ, List.map_append, List.sum_append, ih]
    rcases lt_trichotomy t n with h | h | h
    · have h1 : t < n + 1 := Nat.lt_succ_of_lt h
      have h2 : n ≠ t := by omega
      simp [h, h1, h2]
    · subst h
      simp
    · have h1 : ¬ t < n := by omega
      have h2 : ¬ t < n + 1 := by omega
      have h3 : n ≠ t := by omega
      simp [h1, h2, h3]

theorem sum_map_indicator (t : Nat) (checks : List Nat) :
    (checks.map (fun v => if v = t then 1 else 0)).sum = checks.count t := by
  induction checks with
  | nil => simp
  | cons c cs ih =>
    simp only [List.map_cons, List.sum_cons, List.count_cons, ih]
    by_cases h : c = t
    · simp [h]
      omega
    · simp [h]

theorem sentTuples_all_receive {α : Type} (l : List α) (g : α → Interaction)
    (b : Nat) (h : ∀ x ∈ l, (g x).dir = Direction.receive) :
    sentTuples (l.map g) b = 0 := by
  induction l with
  | nil => rfl
  | cons x xs ih =>
    have hx := h x (List.mem_cons_self x xs)
    have hxs := ih (fun y hy => h y (List.mem_cons_of_mem x hy))
    simp only [List.map_cons, sentTuples, List.sum_cons] at hxs ⊢
    rw [hxs, add_zero]
    simp [hx]

theorem receivedTuples_all_send {α : Type} (l : List α) (g : α → Interaction)
    (b : Nat) (h : ∀ x ∈ l, (g x).dir = Direction.send) :
    receivedTuples (l.map g) b = 0 := by
  induction l with
  | nil => rfl
  | cons x xs ih =>
    have hx := h x (List.mem_cons_self x xs)
    have hxs := ih (fun y hy => h y (List.mem_cons_of_mem x hy))
    simp only [List.map_cons, receivedTuples, List.sum_cons] at hxs ⊢
    rw [hxs, add_zero]
    simp [hx]

theorem count_rangeTable (rb B : Nat) (checks : List Nat) (t : Nat) :
    Multiset.count [t] (sentTuples (rangeTableRows rb B checks) rb)
      = if t < 2 ^ B then checks.count t else 0 := by
  unfold rangeTableRows
  rw [count_sentTuples_map]
  have hcongr : (List.range (2 ^ B)).map (fun v =>
      if (⟨rb, [v], checks.count v, Direction.send⟩ : Interaction).bus = rb ∧
         (⟨rb, [v], checks.count v, Direction.send⟩ : Interaction).dir = Direction.send ∧
         (⟨rb, [v], checks.count v, Direction.send⟩ : Interaction).fields = [t]
      then (⟨rb, [v], checks.count v, Direction.send⟩ : Interaction).mult else 0)
      = (List.range (2 ^ B)).map (fun v => if v = t then checks.count v else 0) := by
    apply List.map_congr_left
    intro v _
    simp
  rw [hcongr, sum_range_hit]

theorem count_rangeTable_other (rb B : Nat) (checks : List Nat) (u : List Nat)
    (hu : ∀ t : Nat, u ≠ [t]) :
    Multiset.count u (sentTuples (rangeTableRows rb B checks) rb) = 0 := by
  unfold rangeTableRows
  rw [count_sentTuples_map]
  apply List.sum_eq_zero
  intro x hx
  rcases List.mem_map.mp hx with ⟨v, _, rfl⟩
  have : ¬ ([v] = u) := fun h => hu v h.symm
  simp [this]

theorem count_rangeChecks (rb : Nat) (checks : List Nat) (t : Nat) :
    Multiset.count [t] (receivedTuples (rangeCheckRows rb checks) rb)
      = checks.count t := by
  unfold rangeCheckRows
  rw [count_receivedTuples_map]
  have hcongr : checks.map (fun v =>
      if (⟨rb, [v], 1, Direction.receive⟩ : Interaction).bus = rb ∧
         (⟨rb, [v], 1, Direction.receive⟩ : Interaction).dir = Direction.receive ∧
         (⟨rb, [v], 1, Direction.receive⟩ : Interaction).fields = [t]
      then (⟨rb, [v], 1, Direction.receive⟩ : Interaction).mult else 0)
      = checks.map (fun v => if v = t then 1 else 0) := by
    apply List.map_congr_left
    intro v _
    simp
  rw [hcongr, sum_map_indicator]

theorem count_rangeChecks_other (rb : Nat) (checks : List Nat) (u : List Nat)
    (hu : ∀ t : Nat, u ≠ [t]) :
    Multiset.count u (receivedTuples (rangeCheckRows rb checks) rb) = 0 := by
  unfold rangeCheckRows
  rw [count_receivedTuples_map]
  apply List.sum_eq_zero
  intro x hx
  rcases List.mem_map.mp hx with ⟨v, _, rfl⟩
  have : ¬ ([v] = u) := fun h => hu v h.symm
  simp [this]

theorem rangeChecker_balanced_iff (rb B : Nat) (checks : List Nat) :
    rangeCheckerBalanced rb B checks ↔ ∀ v ∈ checks, v < 2 ^ B := by
  unfold rangeCheckerBalanced busBalanced
  rw [sentTuples_append, receivedTuples_append]
  rw [show sentTuples (rangeCheckRows rb checks) rb = 0 from
    sentTuples_all_receive checks _ rb (fun x _ => rfl)]
  rw [show receivedTuples (rangeTableRows rb B checks) rb = 0 from
    receivedTuples_all_send (List.range (2 ^ B)) _ rb (fun x _ => rfl)]
  rw [add_zero, zero_add]
  constructor
  · intro h v hv
    by_contra hge
    have hc := congrArg (Multiset.count [v]) h
    rw [count_rangeTable, count_rangeChecks, if_neg hge] at hc
    have : 0 < checks.count v := List.count_pos_iff.mpr hv
    omega
  · intro h
    apply Multiset.ext.mpr
    intro u
    match u with
    | [] =>
      rw [count_rangeTable_other rb B checks [] (fun t => by simp),
        count_rangeChecks_other rb checks [] (fun t => by simp)]
    | [t] =>
      rw [count_rangeTable, count_rangeChecks]
      by_cases ht : t < 2 ^ B
      · rw [if_pos ht]
      · rw [if_neg ht]
        have : t ∉ checks := fun hmem => ht (h t hmem)
        exact (List.count_eq_zero.mpr this).symm
    | a :: b :: rest =>
      rw [count_rangeTable_other rb B checks _ (fun t => by simp),
        count_rangeChecks_other rb checks _ (fun t => by simp)]

/-! ### C8 -/

/-- C8: for every configured bit width, a range check of `2 ^ num_bits - 1`
balances the range bus against the counting table, a range check of
`2 ^ num_bits` makes the bus balance check fail, and in general the bus
balances exactly when every checked value is below the bound — an
out-of-bound value has no matching counting-table row to borrow
multiplicity from. -/
theorem C8_range_checker_boundary (rangeBus num_bits : Nat) :
    rangeCheckerBalanced rangeBus num_bits [2 ^ num_bits - 1] ∧
    ¬ rangeCheckerBalanced rangeBus num_bits [2 ^ num_bits] ∧
    ∀ checks : List Nat,
      (rangeCheckerBalanced rangeBus num_bits checks ↔ ∀ v ∈ checks, v < 2 ^ num_bits) := by
  refine ⟨?_, ?_, fun checks => rangeChecker_balanced_iff rangeBus num_bits checks⟩
  · apply (rangeChecker_balanced_iff rangeBus num_bits _).mpr
    intro v hv
    have : v = 2 ^ num_bits - 1 := by simpa using hv
    subst this
    exact Nat.sub_lt (Nat.pos_pow_of_pos num_bits (by norm_num)) one_pos
  · intro hbal
    have := (rangeChecker_balanced_iff rangeBus num_bits _).mp hbal (2 ^ num_bits)
      (by simp)
    exact lt_irrefl _ this

/-! ### C7 -/

instance : NeZero babyBearPrime := ⟨by norm_num [babyBearPrime]⟩

instance : Fact (1 < babyBearPrime) := ⟨by norm_num [babyBearPrime]⟩

/-- C7: honest trace generation for a program terminating with exit code
`e` always succeeds (soundness is never checked at generation time) and
yields connector public values `is_terminate = 1` and `exit_code = e`,
which verify; mutating the single committed value `exit_code` to `e + 1`,
or `is_terminate` to 0, makes verification fail. -/
theorem C7_connector_tamper (e : Nat) :
    ∃ pvs : VmConnectorPvs, execute_and_generate e = some pvs ∧
      pvs.is_terminate = 1 ∧ pvs.exit_code = (e : BB) ∧
      connectorVerify e pvs = true ∧
      connectorVerify e { pvs with exit_code := pvs.exit_code + 1 } = false ∧
      connectorVerify e { pvs with is_terminate := 0 } = false := by
  refine ⟨⟨(e : BB), 1⟩, rfl, rfl, rfl, ?_, ?_, ?_⟩
  · simp [connectorVerify]
  · simp only [connectorVerify, decide_eq_false_iff_not]
    intro h
    have hx : (e : BB) + 1 = (e : BB) := congrArg VmConnectorPvs.exit_code h
    have h1 : (1 : BB) = 0 := by
      have h2 : (e : BB) + 1 = (e : BB) + 0 := by rw [add_zero]; exact hx
      exact add_left_cancel h2
    exact one_ne_zero h1
  · simp only [connectorVerify, decide_eq_false_iff_not]
    intro h
    have : (0 : BB) = 1 := congrArg VmConnectorPvs.is_terminate h
    exact zero_ne_one this

/-! ### Helper lemmas about the memory controller -/

theorem mlookup_minsert_self (img : List (Address × TimestampedValue))
    (a : Address) (tv : TimestampedValue) :
    mlookup (minsert img a tv) a = tv := by
  induction img with
  | nil => simp [minsert, mlookup]
  | cons p ps ih =>
    by_cases h : p.1 = a
    · simp [minsert, h, mlookup]
    · simp only [minsert, h, if_false]
      simp only [mlookup, List.find?]
      rw [show (decide (p.1 = a)) = false from decide_eq_false h]
      exact ih

theorem write_fst (c : MemoryController) (a : Address) (v : Nat) :
    (c.write a v).1 = ⟨a, mlookup c.image a, ⟨v, c.timestamp⟩⟩ := rfl

theorem write_snd (c : MemoryController) (a : Address) (v : Nat) :
    (c.write a v).2 = ⟨minsert c.image a ⟨v, c.timestamp⟩, c.timestamp + 1⟩ := rfl

theorem writeSeq_cons (c : MemoryController) (a : Address) (v : Nat) (vs : List Nat) :
    writeSeq c a (v :: vs)
      = ((c.write a v).1 :: (writeSeq (c.write a v).2 a vs).1,
         (writeSeq (c.write a v).2 a vs).2) := rfl

theorem writeSeq_length (c : MemoryController) (a : Address) (vs : List Nat) :
    (writeSeq c a vs).1.length = vs.length := by
  induction vs generalizing c with
  | nil => rfl
  | cons v vs ih =>
    rw [writeSeq_cons]
    simp [ih]

theorem writeSeq_timestamp (c : MemoryController) (a : Address) (vs : List Nat) :
    (writeSeq c a vs).2.timestamp = c.timestamp + vs.length := by
  induction vs generalizing c with
  | nil => rfl
  | cons v vs ih =>
    rw [writeSeq_cons]
    dsimp only
    rw [ih, write_snd]
    dsimp only
    simp only [List.length_cons]
    omega

theorem writeSeq_records (c : MemoryController) (a : Address) (vs : List Nat) :
    ∀ w ∈ (writeSeq c a vs).1, w.addr = a ∧ c.timestamp ≤ w.newTV.timestamp ∧
      w.newTV.timestamp < c.timestamp + vs.length := by
  induction vs generalizing c with
  | nil => intro w hw; simp [writeSeq] at hw
  | cons v vs ih =>
    intro w hw
    rw [writeSeq_cons] at hw
    dsimp only at hw
    rcases List.mem_cons.mp hw with hw | hw
    · subst hw
      rw [write_fst]
      refine ⟨rfl, le_refl _, ?_⟩
      dsimp only
      simp only [List.length_cons]
      omega
    · obtain ⟨h1, h2, h3⟩ := ih (c.write a v).2 w hw
      rw [write_snd] at h2 h3
      dsimp only at h2 h3
      refine ⟨h1, by omega, ?_⟩
      simp only [List.length_cons]
      omega

theorem writeSeq_mlookup (c : MemoryController) (a : Address) (vs : List Nat) :
    mlookup (writeSeq c a vs).2.image a
      = (match (writeSeq c a vs).1.getLast? with
         | some w => w.newTV
         | none => mlookup c.image a) := by
  induction vs generalizing c with
  | nil => rfl
  | cons v vs ih =>
    rw [writeSeq_cons]
    dsimp only
    rw [ih (c.write a v).2]
    cases hl : (writeSeq (c.write a v).2 a vs).1 with
    | nil =>
      simp only [List.getLast?_singleton, List.getLast?_nil]
      rw [write_snd]
      dsimp only
      rw [mlookup_minsert_self, write_fst]
    | cons w2 ws2 =>
      obtain ⟨x, hx⟩ := Option.isSome_iff_exists.mp
        (List.getLast?_isSome.mpr (List.cons_ne_nil w2 ws2))
      rw [List.getLast?_cons_cons, hx]

/-! ### C2 -/

/-- C2: after a sequence of writes W1..Wn to an address followed by a read
R, the read record is for that address, is stamped with a fresh timestamp,
returns the value of the last Wi whose timestamp is strictly smaller than
R's — or the canonical default value with timestamp 0 when the address was
never written — and the stored image is left unchanged by the read. -/
theorem C2_read_returns_last_write (a : Address) (vs : List Nat)
    (recs : List MemoryWriteRecord) (c1 : MemoryController)
    (r : MemoryReadRecord) (c2 : MemoryController)
    (hw : writeSeq MemoryController.initial a vs = (recs, c1))
    (hr : c1.read a = (r, c2)) :
    r.addr = a ∧
    r.timestamp = c1.timestamp ∧
    c2.image = c1.image ∧
    c2.timestamp = c1.timestamp + 1 ∧
    (∀ w ∈ recs, w.newTV.timestamp < r.timestamp) ∧
    lastWriteBefore recs a r.timestamp = recs.getLast? ∧
    r.value = (match lastWriteBefore recs a r.timestamp with
       | some w => w.newTV.value
       | none => defaultTV.value) ∧
    r.prevTimestamp = (match lastWriteBefore recs a r.timestamp with
       | some w => w.newTV.timestamp
       | none => defaultTV.timestamp) := by
  have hrecs : recs = (writeSeq MemoryController.initial a vs).1 := by rw [hw]
  have hc1 : c1 = (writeSeq MemoryController.initial a vs).2 := by rw [hw]
  have hrr : r = (c1.read a).1 := by rw [hr]
  have hc2 : c2 = (c1.read a).2 := by rw [hr]
  have hread1 : (c1.read a).1
      = ⟨a, (mlookup c1.image a).value, c1.timestamp, (mlookup c1.image a).timestamp⟩ :=
    rfl
  have hread2 : (c1.read a).2 = ⟨c1.image, c1.timestamp + 1⟩ := rfl
  have ht : c1.timestamp = 1 + vs.length := by
    rw [hc1, writeSeq_timestamp]
    rfl
  have hall : ∀ w ∈ recs, w.addr = a ∧ 1 ≤ w.newTV.timestamp ∧
      w.newTV.timestamp < 1 + vs.length := by
    intro w hwmem
    rw [hrecs] at hwmem
    exact writeSeq_records MemoryController.initial a vs w hwmem
  have hrts : r.timestamp = c1.timestamp := by rw [hrr, hread1]
  have hlt : ∀ w ∈ recs, w.newTV.timestamp < r.timestamp := by
    intro w hwmem
    rw [hrts, ht]
    exact (hall w hwmem).2.2
  have hfilter : lastWriteBefore recs a r.timestamp = recs.getLast? := by
    unfold lastWriteBefore
    congr 1
    apply List.filter_eq_self.mpr
    intro w hwmem
    have h1 := (hall w hwmem).1
    have h2 := hlt w hwmem
    simp [h1, h2]
  have hlook : mlookup c1.image a
      = (match recs.getLast? with
         | some w => w.newTV
         | none => defaultTV) := by
    rw [hc1, hrecs, writeSeq_mlookup]
    rfl
  refine ⟨by rw [hrr, hread1], hrts, by rw [hc2, hread2], by rw [hc2, hread2],
    hlt, hfilter, ?_, ?_⟩
  · rw [hfilter, hrr, hread1]
    dsimp only
    rw [hlook]
    cases recs.getLast? <;> rfl
  · rw [hfilter, hrr, hread1]
    dsimp only
    rw [hlook]
    cases recs.getLast? <;> rfl

/-- Closed witness for C2: two writes of 5 then 9 to address (1,0)
starting from the initial controller; the read observes value 9. -/
theorem C2_read_returns_last_write_witness :
    (⟨⟨1, 0⟩, 9, 3, 2⟩ : MemoryReadRecord).value
      = (match lastWriteBefore
            [⟨⟨1, 0⟩, ⟨0, 0⟩, ⟨5, 1⟩⟩, ⟨⟨1, 0⟩, ⟨5, 1⟩, ⟨9, 2⟩⟩] ⟨1, 0⟩
            (⟨⟨1, 0⟩, 9, 3, 2⟩ : MemoryReadRecord).timestamp with
         | some w => w.newTV.value
         | none => defaultTV.value) := by
  have h := C2_read_returns_last_write ⟨1, 0⟩ [5, 9]
    [⟨⟨1, 0⟩, ⟨0, 0⟩, ⟨5, 1⟩⟩, ⟨⟨1, 0⟩, ⟨5, 1⟩, ⟨9, 2⟩⟩]
    ⟨[(⟨1, 0⟩, ⟨9, 2⟩)], 3⟩ ⟨⟨1, 0⟩, 9, 3, 2⟩ ⟨[(⟨1, 0⟩, ⟨9, 2⟩)], 4⟩
    (by decide) (by decide)
  exact h.2.2.2.2.2.2.1

/-! ### C1 -/

theorem imageMultiset_cons (b : Address) (rest : List Address)
    (f : Address → TimestampedValue) :
    imageMultiset (b :: rest) f = (b, f b) ::ₘ imageMultiset rest f := rfl

theorem imageMultiset_congr (addrs : List Address)
    (f g : Address → TimestampedValue) (h : ∀ a ∈ addrs, f a = g a) :
    imageMultiset addrs f = imageMultiset addrs g := by
  unfold imageMultiset
  congr 1
  apply List.map_congr_left
  intro a ha
  rw [h a ha]

theorem imageMultiset_applyWrite (addrs : List Address)
    (mem : Address → TimestampedValue) (w : MemoryWriteRecord)
    (hmem : w.addr ∈ addrs) (hnd : addrs.Nodup) (hold : mem w.addr = w.oldTV) :
    imageMultiset addrs (applyWrite mem w) + {(w.addr, w.oldTV)}
      = imageMultiset addrs mem + {(w.addr, w.newTV)} := by
  induction addrs with
  | nil => simp at hmem
  | cons b rest ih =>
    rw [imageMultiset_cons, imageMultiset_cons]
    rcases List.mem_cons.mp hmem with hb | hb
    · subst hb
      have hnotin : w.addr ∉ rest := (List.nodup_cons.mp hnd).1
      have hsame : imageMultiset rest (applyWrite mem w) = imageMultiset rest mem := by
        apply imageMultiset_congr
        intro a ha
        have : a ≠ w.addr := fun hEq => hnotin (hEq ▸ ha)
        simp [applyWrite, this]
      have hwv : applyWrite mem w w.addr = w.newTV := by simp [applyWrite]
      rw [hwv, hsame, hold, ← Multiset.singleton_add, ← Multiset.singleton_add]
      abel
    · have hbne : b ≠ w.addr := by
        intro hEq
        exact (List.nodup_cons.mp hnd).1 (hEq ▸ hb)
      have hbv : applyWrite mem w b = mem b := by simp [applyWrite, hbne]
      have ihh := ih hb (List.nodup_cons.mp hnd).2
      rw [hbv, Multiset.cons_add, Multiset.cons_add, ihh]

theorem multiset_write_invariant (addrs : List Address)
    (mem0 : Address → TimestampedValue) (ws : List MemoryWriteRecord)
    (hnd : addrs.Nodup) (hin : ∀ w ∈ ws, w.addr ∈ addrs)
    (hcons : ConsistentLog mem0 ws) :
    imageMultiset addrs mem0 + ↑(ws.map (fun w => (w.addr, w.newTV)))
      = ↑(ws.map (fun w => (w.addr, w.oldTV)))
        + imageMultiset addrs (applyWrites mem0 ws) := by
  induction ws generalizing mem0 with
  | nil => simp [applyWrites]
  | cons w ws ih =>
    obtain ⟨hold, hcons2⟩ := hcons
    have hw : w.addr ∈ addrs := hin w (List.mem_cons_self w ws)
    have step := imageMultiset_applyWrite addrs mem0 w hw hnd hold
    have ihh := ih (applyWrite mem0 w)
      (fun x hx => hin x (List.mem_cons_of_mem _ hx)) hcons2
    have happ : applyWrites mem0 (w :: ws) = applyWrites (applyWrite mem0 w) ws := rfl
    rw [happ, List.map_cons, List.map_cons, ← Multiset.cons_coe, ← Multiset.cons_coe,
      ← Multiset.singleton_add, ← Multiset.singleton_add]
    calc imageMultiset addrs mem0
          + ({(w.addr, w.newTV)} + ↑(ws.map (fun x => (x.addr, x.newTV))))
        = (imageMultiset addrs mem0 + {(w.addr, w.newTV)})
            + ↑(ws.map (fun x => (x.addr, x.newTV))) := by rw [add_assoc]
      _ = (imageMultiset addrs (applyWrite mem0 w) + {(w.addr, w.oldTV)})
            + ↑(ws.map (fun x => (x.addr, x.newTV))) := by rw [step]
      _ = {(w.addr, w.oldTV)} + (imageMultiset addrs (applyWrite mem0 w)
            + ↑(ws.map (fun x => (x.addr, x.newTV)))) := by
              rw [add_comm (imageMultiset addrs (applyWrite mem0 w)) _, add_assoc]
      _ = {(w.addr, w.oldTV)} + (↑(ws.map (fun x => (x.addr, x.oldTV)))
            + imageMultiset addrs (applyWrites (applyWrite mem0 w) ws)) := by rw [ihh]
      _ = {(w.addr, w.oldTV)} + ↑(ws.map (fun x => (x.addr, x.oldTV)))
            + imageMultiset addrs (applyWrites (applyWrite mem0 w) ws) := by
              rw [add_assoc]

theorem sent_audit (mb : Nat) (touched : List (Address × Nat))
    (f : Address → TimestampedValue) :
    sentTuples (auditInteractions ⟨mb, touched⟩ f) mb
      = ↑(touched.map (fun p => [p.1.addrSpace, p.1.pointer, p.2, 0])) := by
  induction touched with
  | nil => rfl
  | cons p rest ih =>
    simp only [auditInteractions] at ih ⊢
    simp only [List.map_cons, List.flatten_cons]
    rw [sentTuples_append, ih]
    rw [show sentTuples (auditRowInteractions mb p.1 p.2 (f p.1)) mb
      = {[p.1.addrSpace, p.1.pointer, p.2, 0]} by
        simp [sentTuples, auditRowInteractions, Multiset.replicate_one]]
    rw [← Multiset.cons_coe, ← Multiset.singleton_add]

theorem received_audit (mb : Nat) (touched : List (Address × Nat))
    (f : Address → TimestampedValue) :
    receivedTuples (auditInteractions ⟨mb, touched⟩ f) mb
      = ↑(touched.map (fun p =>
          [p.1.addrSpace, p.1.pointer, (f p.1).value, (f p.1).timestamp])) := by
  induction touched with
  | nil => rfl
  | cons p rest ih =>
    simp only [auditInteractions] at ih ⊢
    simp only [List.map_cons, List.flatten_cons]
    rw [receivedTuples_append, ih]
    rw [show receivedTuples (auditRowInteractions mb p.1 p.2 (f p.1)) mb
      = {[p.1.addrSpace, p.1.pointer, (f p.1).value, (f p.1).timestamp]} by
        simp [receivedTuples, auditRowInteractions, Multiset.replicate_one]]
    rw [← Multiset.cons_coe, ← Multiset.singleton_add]

theorem sent_counterpart (mb : Nat) (touched : List (Address × Nat))
    (f : Address → TimestampedValue) :
    sentTuples (counterpartInteractions ⟨mb, touched⟩ f) mb
      = ↑(touched.map (fun p =>
          [p.1.addrSpace, p.1.pointer, (f p.1).value, (f p.1).timestamp])) := by
  induction touched with
  | nil => rfl
  | cons p rest ih =>
    simp only [counterpartInteractions] at ih ⊢
    simp only [List.map_cons, List.flatten_cons]
    rw [sentTuples_append, ih]
    rw [show sentTuples
        [(⟨mb, [p.1.addrSpace, p.1.pointer, p.2, 0], 1, .receive⟩ : Interaction),
         ⟨mb, [p.1.addrSpace, p.1.pointer, (f p.1).value, (f p.1).timestamp],
          1, .send⟩] mb
      = {[p.1.addrSpace, p.1.pointer, (f p.1).value, (f p.1).timestamp]} by
        simp [sentTuples, Multiset.replicate_one]]
    rw [← Multiset.cons_coe, ← Multiset.singleton_add]

theorem received_counterpart (mb : Nat) (touched : List (Address × Nat))
    (f : Address → TimestampedValue) :
    receivedTuples (counterpartInteractions ⟨mb, touched⟩ f) mb
      = ↑(touched.map (fun p => [p.1.addrSpace, p.1.pointer, p.2, 0])) := by
  induction touched with
  | nil => rfl
  | cons p rest ih =>
    simp only [counterpartInteractions] at ih ⊢
    simp only [List.map_cons, List.flatten_cons]
    rw [receivedTuples_append, ih]
    rw [show receivedTuples
        [(⟨mb, [p.1.addrSpace, p.1.pointer, p.2, 0], 1, .receive⟩ : Interaction),
         ⟨mb, [p.1.addrSpace, p.1.pointer, (f p.1).value, (f p.1).timestamp],
          1, .send⟩] mb
      = {[p.1.addrSpace, p.1.pointer, p.2, 0]} by
        simp [receivedTuples, Multiset.replicate_one]]
    rw [← Multiset.cons_coe, ← Multiset.singleton_add]

/-- C1: for any complete execution (a consistent write log over the
touched addresses) the multiset of (address, value, timestamp) tuples
{initial image} + {write new values} equals {write old values} + {final
image}; the bus balance outcome is invariant under permuting trace rows
with multiplicities fixed; and the audit chip's declared interactions
balance the memory bus against an initial-image counterpart and a
final-image counterpart. -/
theorem C1_offline_checking_invariant (addrs : List Address)
    (mem0 : Address → TimestampedValue) (ws : List MemoryWriteRecord)
    (rows1 rows2 : List Interaction) (b : Nat) (chip : MemoryAuditChip)
    (finalMem : Address → TimestampedValue)
    (hnd : addrs.Nodup) (hin : ∀ w ∈ ws, w.addr ∈ addrs)
    (hcons : ConsistentLog mem0 ws) (hperm : rows1.Perm rows2) :
    (imageMultiset addrs mem0 + ↑(ws.map (fun w => (w.addr, w.newTV)))
      = ↑(ws.map (fun w => (w.addr, w.oldTV)))
        + imageMultiset addrs (applyWrites mem0 ws)) ∧
    (busBalanced rows1 b ↔ busBalanced rows2 b) ∧
    busBalanced
      (auditInteractions chip finalMem ++ counterpartInteractions chip finalMem)
      chip.memoryBus := by
  refine ⟨multiset_write_invariant addrs mem0 ws hnd hin hcons, ?_, ?_⟩
  · unfold busBalanced
    rw [sentTuples_perm hperm b, receivedTuples_perm hperm b]
  · unfold busBalanced
    rw [sentTuples_append, receivedTuples_append]
    obtain ⟨mb, touched⟩ := chip
    rw [sent_audit, received_audit, sent_counterpart, received_counterpart]
    exact add_comm _ _

/-- Closed witness for C1: one touched address, one consistent write. -/
theorem C1_offline_checking_invariant_witness :
    imageMultiset [⟨1, 0⟩] (fun _ => defaultTV)
        + ↑(([⟨⟨1, 0⟩, defaultTV, ⟨5, 1⟩⟩] : List MemoryWriteRecord).map
            (fun w => (w.addr, w.newTV)))
      = ↑(([⟨⟨1, 0⟩, defaultTV, ⟨5, 1⟩⟩] : List MemoryWriteRecord).map
            (fun w => (w.addr, w.oldTV)))
        + imageMultiset [⟨1, 0⟩]
            (applyWrites (fun _ => defaultTV) [⟨⟨1, 0⟩, defaultTV, ⟨5, 1⟩⟩]) := by
  have h := C1_offline_checking_invariant [⟨1, 0⟩] (fun _ => defaultTV)
    [⟨⟨1, 0⟩, defaultTV, ⟨5, 1⟩⟩] [] [] 0 ⟨1, [(⟨1, 0⟩, 0)]⟩ (fun _ => ⟨5, 1⟩)
    (by decide) (by intro w hw; simp at hw; rw [hw]; simp)
    (by exact ⟨rfl, trivial⟩) (List.Perm.refl [])
  exact h.1

/-! ### C5 -/

theorem mem_minsert (img : List (Address × TimestampedValue)) (a : Address)
    (tv : TimestampedValue) (p : Address × TimestampedValue) :
    p ∈ minsert img a tv → p = (a, tv) ∨ p ∈ img := by
  induction img with
  | nil =>
    intro hp
    simp [minsert] at hp
    exact Or.inl hp
  | cons q qs ih =>
    intro hp
    by_cases h : q.1 = a
    · simp only [minsert, h, if_true, List.mem_cons] at hp
      rcases hp with hp | hp
      · exact Or.inl hp
      · exact Or.inr (List.mem_cons_of_mem q hp)
    · simp only [minsert, h, if_false, List.mem_cons] at hp
      rcases hp with hp | hp
      · exact Or.inr (List.mem_cons.mpr (Or.inl hp))
      · rcases ih hp with hp2 | hp2
        · exact Or.inl hp2
        · exact Or.inr (List.mem_cons_of_mem q hp2)

theorem runOps_spec (c : MemoryController) (ops : List MemOp)
    (hts : 1 ≤ c.timestamp) (himg : ∀ p ∈ c.image, 1 ≤ p.2.timestamp) :
    (∀ t ∈ (runOps c ops).1, 1 ≤ t) ∧
    (∀ p ∈ (runOps c ops).2.image, 1 ≤ p.2.timestamp) ∧
    1 ≤ (runOps c ops).2.timestamp := by
  induction ops generalizing c with
  | nil => exact ⟨by intro t ht; simp [runOps] at ht, himg, hts⟩
  | cons op ops ih =>
    cases op with
    | read a =>
      obtain ⟨ih1, ih2, ih3⟩ := ih ⟨c.image, c.timestamp + 1⟩
        (show 1 ≤ c.timestamp + 1 by omega) himg
      refine ⟨?_, ih2, ih3⟩
      intro t ht
      simp only [runOps, MemoryController.step, MemoryController.read,
        List.mem_cons] at ht
      rcases ht with ht | ht
      · omega
      · exact ih1 t ht
    | write a v =>
      have himg2 : ∀ p ∈ minsert c.image a ⟨v, c.timestamp⟩, 1 ≤ p.2.timestamp := by
        intro p hp
        rcases mem_minsert c.image a ⟨v, c.timestamp⟩ p hp with hp2 | hp2
        · rw [hp2]
          exact hts
        · exact himg p hp2
      obtain ⟨ih1, ih2, ih3⟩ :=
        ih ⟨minsert c.image a ⟨v, c.timestamp⟩, c.timestamp + 1⟩
          (show 1 ≤ c.timestamp + 1 by omega) himg2
      refine ⟨?_, ih2, ih3⟩
      intro t ht
      simp only [runOps, MemoryController.step, MemoryController.write,
        List.mem_cons] at ht
      rcases ht with ht | ht
      · omega
      · exact ih1 t ht

/-- C5: the initial image declares timestamp 0 for every address (the
reserved "never written" marker), and every timestamp stamped onto an
actual access — and hence every final-image entry produced by an
access — is at least 1. -/
theorem C5_timestamps_positive (ops : List MemOp) (a : Address) :
    mlookup MemoryController.initial.image a = defaultTV ∧
    defaultTV.timestamp = 0 ∧
    (∀ t ∈ (runOps MemoryController.initial ops).1, 1 ≤ t) ∧
    (∀ p ∈ (runOps MemoryController.initial ops).2.image, 1 ≤ p.2.timestamp) := by
  obtain ⟨h1, h2, _⟩ := runOps_spec MemoryController.initial ops (le_refl 1)
    (by intro p hp; simp [MemoryController.initial] at hp)
  exact ⟨rfl, rfl, h1, h2⟩

/-! ### C3 -/

theorem touch_fold (memBus : Nat) (pre : List (Address × Nat)) (addrs : List Address)
    (hnd : addrs.Nodup) (hdisj : ∀ a ∈ addrs, a ∉ pre.map Prod.fst) :
    (addrs.foldl (fun ch a => ch.touch_address a.addrSpace a.pointer 0)
        (⟨memBus, pre⟩ : MemoryAuditChip))
      = ⟨memBus, pre ++ addrs.map (fun a => (a, 0))⟩ := by
  induction addrs generalizing pre with
  | nil => simp
  | cons a rest ih =>
    have ha : a ∉ pre.map Prod.fst := hdisj a (List.mem_cons_self a rest)
    have hstep : (⟨memBus, pre⟩ : MemoryAuditChip).touch_address
        a.addrSpace a.pointer 0 = ⟨memBus, pre ++ [(a, 0)]⟩ := by
      simp [MemoryAuditChip.touch_address, ha]
    have hnd2 : rest.Nodup := (List.nodup_cons.mp hnd).2
    have hnotin : a ∉ rest := (List.nodup_cons.mp hnd).1
    have hdisj2 : ∀ b ∈ rest, b ∉ (pre ++ [(a, 0)]).map Prod.fst := by
      intro b hb
      simp only [List.map_append, List.mem_append, List.map_cons, List.map_nil,
        List.mem_singleton]
      rintro (hmem | hmem)
      · exact hdisj b (List.mem_cons_of_mem a hb) hmem
      · exact hnotin (hmem ▸ hb)
    rw [List.foldl_cons, hstep, ih (pre ++ [(a, 0)]) hnd2 hdisj2]
    simp

/-- C3: touching a `Nodup` list of addresses with the default value makes
the audit chip emit exactly one content row per distinct touched address;
each row sends an interaction carrying the default value and timestamp 0
(the "initial" side) and receives one carrying that address's terminal
timestamped value (the "final" side) on the same memory bus; the declared
initial value is the default, i.e. exactly the logical value of a
never-written address. -/
theorem C3_audit_one_row_per_address (memBus : Nat) (addrs : List Address)
    (finalMem : Address → TimestampedValue) (hnd : addrs.Nodup) :
    let chip := addrs.foldl (fun ch a => ch.touch_address a.addrSpace a.pointer 0)
      (⟨memBus, []⟩ : MemoryAuditChip)
    chip.touched = addrs.map (fun a => (a, 0)) ∧
    (chip.contentRows finalMem).length = addrs.length ∧
    chip.contentRows finalMem = addrs.map (fun a =>
      ⟨1, a.addrSpace, a.pointer, (finalMem a).value, (finalMem a).timestamp⟩) ∧
    (∀ p ∈ chip.touched,
      auditRowInteractions chip.memoryBus p.1 p.2 (finalMem p.1)
        = [⟨memBus, [p.1.addrSpace, p.1.pointer, defaultTV.value, defaultTV.timestamp],
             1, .send⟩,
           ⟨memBus, [p.1.addrSpace, p.1.pointer, (finalMem p.1).value,
             (finalMem p.1).timestamp], 1, .receive⟩] ∧
        p.2 = defaultTV.value ∧ mlookup [] p.1 = defaultTV) := by
  have hchip := touch_fold memBus [] addrs hnd (by intro a _ h; simp at h)
  rw [List.nil_append] at hchip
  intro chip
  have hc : chip = ⟨memBus, addrs.map (fun a => (a, 0))⟩ := hchip
  refine ⟨by rw [hc], ?_, ?_, ?_⟩
  · rw [hc]
    simp [MemoryAuditChip.contentRows]
  · rw [hc]
    simp [MemoryAuditChip.contentRows]
  · intro p hp
    rw [hc] at hp
    rcases List.mem_map.mp hp with ⟨a, _, rfl⟩
    exact ⟨by rw [hc]; rfl, rfl, rfl⟩

/-- Closed witness for C3: two distinct touched addresses produce exactly
those two audit entries. -/
theorem C3_audit_one_row_per_address_witness :
    (([⟨1, 0⟩, ⟨2, 5⟩] : List Address).foldl
        (fun ch a => ch.touch_address a.addrSpace a.pointer 0)
        (⟨7, []⟩ : MemoryAuditChip)).touched
      = ([⟨1, 0⟩, ⟨2, 5⟩] : List Address).map (fun a => (a, 0)) := by
  have h := C3_audit_one_row_per_address 7 [⟨1, 0⟩, ⟨2, 5⟩] (fun _ => defaultTV)
    (by decide)
  exact h.1

/-! ### C6 -/

/-- C6: a trace with `n` content rows is padded to
`next_power_of_two_or_zero n` rows — 0 when `n = 0`, otherwise the least
power of two that is ≥ `n` — every padding row carries multiplicity 0,
and appending multiplicity-0 rows changes neither the declared
interaction multisets nor the outcome of the bus balance check. -/
theorem C6_trace_padding (n : Nat) (rows pad : List Interaction) (b : Nat)
    (chip : MemoryAuditChip) (finalMem : Address → TimestampedValue)
    (hpad : ∀ i ∈ pad, i.mult = 0) :
    next_power_of_two_or_zero 0 = 0 ∧
    (0 < n → n ≤ next_power_of_two_or_zero n ∧
      (∃ k, next_power_of_two_or_zero n = 2 ^ k) ∧
      ∀ m, n ≤ 2 ^ m → next_power_of_two_or_zero n ≤ 2 ^ m) ∧
    (chip.generate_trace finalMem).length
      = next_power_of_two_or_zero (chip.contentRows finalMem).length ∧
    (∀ r ∈ (chip.generate_trace finalMem).drop (chip.contentRows finalMem).length,
      r.mult = 0) ∧
    sentTuples (rows ++ pad) b = sentTuples rows b ∧
    receivedTuples (rows ++ pad) b = receivedTuples rows b ∧
    (busBalanced (rows ++ pad) b ↔ busBalanced rows b) := by
  have hle : ∀ k : Nat, k ≤ next_power_of_two_or_zero k := by
    intro k
    rcases Nat.eq_zero_or_pos k with hk | hk
    · simp [hk, next_power_of_two_or_zero]
    · simp only [next_power_of_two_or_zero, next_power_of_two, hk.ne', if_false]
      exact Nat.le_pow_clog one_lt_two k
  have hsent : sentTuples (rows ++ pad) b = sentTuples rows b := by
    rw [sentTuples_append, sentTuples_zero_mult pad b hpad, add_zero]
  have hrecv : receivedTuples (rows ++ pad) b = receivedTuples rows b := by
    rw [receivedTuples_append, receivedTuples_zero_mult pad b hpad, add_zero]
  refine ⟨rfl, ?_, ?_, ?_, hsent, hrecv, ?_⟩
  · intro hn
    refine ⟨hle n, ⟨Nat.clog 2 n, ?_⟩, ?_⟩
    · simp [next_power_of_two_or_zero, next_power_of_two, hn.ne']
    · intro m hm
      simp only [next_power_of_two_or_zero, next_power_of_two, hn.ne', if_false]
      exact Nat.pow_le_pow_right (by norm_num) ((Nat.le_pow_iff_clog_le one_lt_two).mp hm)
  · simp only [MemoryAuditChip.generate_trace, List.length_append, List.length_replicate]
    exact Nat.add_sub_cancel' (hle _)
  · intro r hr
    simp only [MemoryAuditChip.generate_trace, List.drop_append_of_le_length le_rfl,
      List.drop_length, List.nil_append] at hr
    have := List.eq_of_mem_replicate hr
    simp [this]
  · constructor
    · intro h
      unfold busBalanced at h ⊢
      rw [hsent, hrecv] at h
      exact h
    · intro h
      unfold busBalanced at h ⊢
      rw [hsent, hrecv]
      exact h

/-- Closed witness for C6 at concrete inputs. -/
theorem C6_trace_padding_witness :
    next_power_of_two_or_zero 0 = 0 ∧
    (0 < 5 → 5 ≤ next_power_of_two_or_zero 5 ∧
      (∃ k, next_power_of_two_or_zero 5 = 2 ^ k) ∧
      ∀ m, 5 ≤ 2 ^ m → next_power_of_two_or_zero 5 ≤ 2 ^ m) ∧
    ((⟨1, [(⟨0, 0⟩, 0)]⟩ : MemoryAuditChip).generate_trace (fun _ => defaultTV)).length
      = next_power_of_two_or_zero
          (((⟨1, [(⟨0, 0⟩, 0)]⟩ : MemoryAuditChip).contentRows (fun _ => defaultTV)).length) ∧
    (∀ r ∈ (((⟨1, [(⟨0, 0⟩, 0)]⟩ : MemoryAuditChip).generate_trace (fun _ => defaultTV)).drop
        (((⟨1, [(⟨0, 0⟩, 0)]⟩ : MemoryAuditChip).contentRows (fun _ => defaultTV)).length)),
      r.mult = 0) ∧
    sentTuples ([] ++ [⟨1, [2], 0, .send⟩]) 1 = sentTuples [] 1 ∧
    receivedTuples ([] ++ [⟨1, [2], 0, .send⟩]) 1 = receivedTuples [] 1 ∧
    (busBalanced ([] ++ [⟨1, [2], 0, .send⟩]) 1 ↔ busBalanced [] 1) :=
  C6_trace_padding 5 [] [⟨1, [2], 0, .send⟩] 1 ⟨1, [(⟨0, 0⟩, 0)]⟩ (fun _ => defaultTV)
    (by decide)

/-! ### C10 -/

theorem big_uint_mod_inverse_mul (y m : Nat) (hm : 0 < m)
    (hg : Nat.gcd y m = 1) :
    ((big_uint_mod_inverse y m : Nat) : ZMod m) * (y : ZMod m) = 1 := by
  have hmz : (m : Int) ≠ 0 := by
    simpa using hm.ne'
  have hnn : 0 ≤ Nat.gcdA y m % (m : Int) := Int.emod_nonneg _ hmz
  have hcast : ((big_uint_mod_inverse y m : Nat) : ZMod m)
      = ((Nat.gcdA y m : Int) : ZMod m) := by
    unfold big_uint_mod_inverse
    rw [← Int.cast_natCast, Int.toNat_of_nonneg hnn, ZMod.intCast_mod]
  have hab := Nat.gcd_eq_gcd_ab y m
  rw [hg] at hab
  have hz := congrArg (fun z : Int => (z : ZMod m)) hab
  push_cast at hz
  rw [ZMod.natCast_self, zero_mul, add_zero] at hz
  rw [hcast, mul_comm]
  exact hz.symm

/-- C10: with `y` invertible modulo the chip's modulus,
`solve DIV x y` returns the unique `z` strictly below the modulus with
`z * y ≡ x (mod modulus)`, and multiplying the quotient back by `y` with
`solve MUL` recovers `x` modulo the modulus. -/
theorem C10_solve_div_mul_inverse (chip : ModularMultDivChip) (x y : Nat)
    (hm : 0 < chip.modulus) (hg : Nat.gcd y chip.modulus = 1) :
    ∃ z, chip.solve ModularArithmeticOpcode.DIV x y = some z ∧
      z < chip.modulus ∧
      z * y % chip.modulus = x % chip.modulus ∧
      (∀ z2, z2 < chip.modulus → z2 * y % chip.modulus = x % chip.modulus →
        z2 = z) ∧
      ∃ w, chip.solve ModularArithmeticOpcode.MUL z y = some w ∧
        w % chip.modulus = x % chip.modulus := by
  set m := chip.modulus with hmm2
  haveI : NeZero m := ⟨hm.ne'⟩
  set inv := big_uint_mod_inverse y m with hinvdef
  have hinv : ((inv : Nat) : ZMod m) * (y : ZMod m) = 1 :=
    big_uint_mod_inverse_mul y m hm hg
  have hmain : x * inv % m * y % m = x % m := by
    apply (ZMod.natCast_eq_natCast_iff _ _ _).mp
    push_cast
    rw [ZMod.natCast_mod]
    push_cast
    rw [mul_assoc, hinv, mul_one]
  refine ⟨x * inv % m, rfl, Nat.mod_lt _ hm, hmain, ?_, ?_⟩
  · intro z2 hz2 heq
    have hcast : ((z2 * y : Nat) : ZMod m) = (((x * inv % m) * y : Nat) : ZMod m) := by
      apply (ZMod.natCast_eq_natCast_iff _ _ _).mpr
      unfold Nat.ModEq
      rw [heq, hmain]
    have hz2cast : (z2 : ZMod m) = ((x * inv % m : Nat) : ZMod m) := by
      push_cast at hcast
      have h3 := congrArg (fun t : ZMod m => t * ((inv : Nat) : ZMod m)) hcast
      simp only [mul_assoc, mul_comm (y : ZMod m) _, hinv] at h3
      simpa using h3
    have := congrArg ZMod.val hz2cast
    rw [ZMod.val_cast_of_lt hz2, ZMod.val_cast_of_lt (Nat.mod_lt _ hm)] at this
    exact this
  · refine ⟨x * inv % m * y % m, rfl, ?_⟩
    rw [Nat.mod_mod_of_dvd _ (dvd_refl m)]
    exact hmain

/-- Closed witness for C10: modulus 7, x = 5, y = 3; the quotient is 4. -/
theorem C10_solve_div_mul_inverse_witness :
    (⟨3, 2, 8, 7, 8⟩ : ModularMultDivChip).solve ModularArithmeticOpcode.DIV 5 3
      = some 4 ∧ (4 : Nat) < 7 ∧ 4 * 3 % 7 = 5 % 7 := by
  obtain ⟨z, h1, h2, h3, _, _⟩ :=
    C10_solve_div_mul_inverse ⟨3, 2, 8, 7, 8⟩ 5 3 (by decide) (by decide)
  have hA : Nat.gcdA 3 7 = -2 := by
    rw [Nat.gcdA, Nat.xgcd]
    rw [Nat.xgcdAux_rec (by norm_num)]
    norm_num
    rw [Nat.xgcdAux_rec (by norm_num)]
    norm_num
  have hB : big_uint_mod_inverse 3 7 = 5 := by
    unfold big_uint_mod_inverse
    rw [hA]
    decide
  have h14 : (⟨3, 2, 8, 7, 8⟩ : ModularMultDivChip).solve
      ModularArithmeticOpcode.DIV 5 3 = some 4 := by
    show some (5 * big_uint_mod_inverse 3 7 % 7) = some 4
    rw [hB]
  have hz : z = 4 := by
    rw [h1] at h14
    exact Option.some.inj h14
  subst hz
  exact ⟨h1, h2, h3⟩

/-! ### C4 -/

/-- C4: when the incoming execution state's timestamp equals the memory
controller's current timestamp (the `debug_assert_eq!` precondition) and
the configuration assertions hold, `ModularMultDivChip::execute` succeeds;
the returned state's timestamp equals the controller's timestamp after the
two heap reads and one heap write, is strictly greater than the incoming
timestamp, and advances by exactly one timestamp per controller call (six
calls in total); the program counter advances by one. -/
theorem C4_execute_timestamp_discipline (chip : ModularMultDivChip)
    (inst : Instruction) (st : ExecutionState) (c : MemoryController)
    (hcar : chip.CARRY_LIMBS = chip.NUM_LIMBS * 2 - 1)
    (hlimb : chip.LIMB_SIZE ≤ 10)
    (hop : inst.opcode = ModularArithmeticOpcode.MUL ∨
      inst.opcode = ModularArithmeticOpcode.DIV)
    (hts : st.timestamp = c.timestamp) :
    ∃ st2 c2, chip.execute inst st c = .ok (st2, c2) ∧
      st2.timestamp = c2.timestamp ∧
      c2.timestamp = c.timestamp + 6 ∧
      st.timestamp < st2.timestamp ∧
      st2.pc = st.pc + 1 := by
  unfold ModularMultDivChip.execute
  rw [if_neg (by simp [hcar]), if_neg (by simp [hlimb])]
  rcases hop with hop | hop <;>
    rw [hop] <;>
    refine ⟨_, _, rfl, rfl, ?_, ?_, rfl⟩ <;>
    · simp only [MemoryController.write_heap, MemoryController.read_heap,
        MemoryController.readCell, MemoryController.readRange,
        MemoryController.writeRange]
      try omega

/-- Closed witness for C4 at a concrete chip, instruction, state and
controller. -/
theorem C4_execute_timestamp_discipline_witness :
    ∃ st2 c2,
      (⟨3, 2, 8, 7, 8⟩ : ModularMultDivChip).execute
          ⟨ModularArithmeticOpcode.MUL, 0, 4, 8, 1, 2⟩ ⟨0, 1⟩
          MemoryController.initial = .ok (st2, c2) ∧
      st2.timestamp = c2.timestamp ∧
      c2.timestamp = MemoryController.initial.timestamp + 6 ∧
      (⟨0, 1⟩ : ExecutionState).timestamp < st2.timestamp ∧
      st2.pc = (⟨0, 1⟩ : ExecutionState).pc + 1 :=
  C4_execute_timestamp_discipline ⟨3, 2, 8, 7, 8⟩
    ⟨ModularArithmeticOpcode.MUL, 0, 4, 8, 1, 2⟩ ⟨0, 1⟩ MemoryController.initial
    (by decide) (by decide) (Or.inl rfl) rfl

/-! ### C9 -/

/-- C9: programming/usage errors are detected eagerly and fatally:
`ModularMultDivChip::new` panics exactly when the shared range checker's
`range_max_bits` is smaller than `LIMB_SIZE`; `execute` panics before any
memory access (its outcome is independent of the controller state) when
`CARRY_LIMBS ≠ 2·NUM_LIMBS − 1` or `LIMB_SIZE > 10`; and under the
complementary configuration preconditions none of these assertions
fires. -/
theorem C9_eager_fatal_assertions (CL NL LS rmb mo : Nat)
    (chip : ModularMultDivChip) (inst : Instruction) (st : ExecutionState)
    (c c2 : MemoryController) :
    ((ModularMultDivChip.new CL NL LS rmb mo).isNone ↔ rmb < LS) ∧
    (chip.CARRY_LIMBS ≠ chip.NUM_LIMBS * 2 - 1 →
      chip.execute inst st c = .error ExecError.assertCarryLimbs ∧
      chip.execute inst st c = chip.execute inst st c2) ∧
    (chip.CARRY_LIMBS = chip.NUM_LIMBS * 2 - 1 → 10 < chip.LIMB_SIZE →
      chip.execute inst st c = .error ExecError.assertLimbSize ∧
      chip.execute inst st c = chip.execute inst st c2) ∧
    (LS ≤ rmb → (ModularMultDivChip.new CL NL LS rmb mo).isSome) ∧
    (chip.CARRY_LIMBS = chip.NUM_LIMBS * 2 - 1 → chip.LIMB_SIZE ≤ 10 →
      chip.execute inst st c ≠ .error ExecError.assertCarryLimbs ∧
      chip.execute inst st c ≠ .error ExecError.assertLimbSize) := by
  refine ⟨?_, ?_, ?_, ?_, ?_⟩
  · unfold ModularMultDivChip.new
    by_cases h : rmb < LS <;> simp [h]
  · intro h
    unfold ModularMultDivChip.execute
    rw [if_pos h, if_pos h]
    exact ⟨rfl, rfl⟩
  · intro h1 h2
    unfold ModularMultDivChip.execute
    rw [if_neg (by simp [h1]), if_pos (by omega), if_neg (by simp [h1]),
      if_pos (by omega)]
    exact ⟨rfl, rfl⟩
  · intro h
    unfold ModularMultDivChip.new
    rw [if_neg (by omega)]
    rfl
  · intro h1 h2
    unfold ModularMultDivChip.execute
    rw [if_neg (by simp [h1]), if_neg (by simp [h2])]
    cases hs : chip.solve inst.opcode
        (limbs_to_biguint
          ((c.read_heap inst.d inst.e inst.op_b chip.NUM_LIMBS).1.2) chip.LIMB_SIZE)
        (limbs_to_biguint
          (((c.read_heap inst.d inst.e inst.op_b chip.NUM_LIMBS).2.read_heap
              inst.d inst.e inst.op_c chip.NUM_LIMBS).1.2) chip.LIMB_SIZE) with
    | none => simp [hs]
    | some z => simp [hs]

/-- Closed witness for C9 at concrete configuration values. -/
theorem C9_eager_fatal_assertions_witness :
    ((ModularMultDivChip.new 3 2 8 4 7).isNone ↔ 4 < 8) :=
  (C9_eager_fatal_assertions 3 2 8 4 7 ⟨3, 2, 8, 7, 8⟩
    ⟨ModularArithmeticOpcode.MUL, 0, 4, 8, 1, 2⟩ ⟨0, 1⟩
    MemoryController.initial MemoryController.initial).1

/-- Closed witness for C5: one write to address (1, 0). -/
theorem C5_timestamps_positive_witness :
    (∀ t ∈ (runOps MemoryController.initial [MemOp.write ⟨1, 0⟩ 5]).1, 1 ≤ t) ∧
    (∀ p ∈ (runOps MemoryController.initial [MemOp.write ⟨1, 0⟩ 5]).2.image,
      1 ≤ p.2.timestamp) := by
  have h := C5_timestamps_positive [MemOp.write ⟨1, 0⟩ 5] ⟨1, 0⟩
  exact ⟨h.2.2.1, h.2.2.2⟩

/-- Closed witness for C7 at the exit code 1789 used by the connector
tests. -/
theorem C7_connector_tamper_witness :
    connectorVerify 1789 ⟨(1789 : BB), 1⟩ = true ∧
    connectorVerify 1789 ⟨(1789 : BB) + 1, 1⟩ = false ∧
    connectorVerify 1789 ⟨(1789 : BB), 0⟩ = false := by
  obtain ⟨pvs, h1, _, _, h4, h5, h6⟩ := C7_connector_tamper 1789
  have hp : pvs = ⟨(1789 : BB), 1⟩ := by
    have : (some ⟨(1789 : BB), 1⟩ : Option VmConnectorPvs) = some pvs := h1
    exact (Option.some.inj this).symm
  subst hp
  exact ⟨h4, h5, h6⟩

/-- Closed witness for C8 at 4 bits. -/
theorem C8_range_checker_boundary_witness :
    rangeCheckerBalanced 0 4 [2 ^ 4 - 1] ∧ ¬ rangeCheckerBalanced 0 4 [2 ^ 4] := by
  have h := C8_range_checker_boundary 0 4
  exact ⟨h.1, h.2.1⟩

end OpenVM
